import Mathlib

/-!
# Verification of the gather-ts dependency engine

Shallow embedding of the core of `src/core/dependency` (DependencyCache,
IgnoreHandler, DependencyAnalyzer) and proofs of the specified properties.

Conventions of the embedding:
* JS `Map`s and `Set`s are association lists / lists preserving insertion
  order, with `Set.add` a no-op on present elements.
* `Date.now()` is an explicit `now : Int` argument.
* Filesystem and logging effects are elided; filesystem queries the code
  performs (`resolvePath`, `exists`, `getRelativePath`, ...) are abstract
  function parameters.  Operations that throw are modelled with `Except`.
* JS numeric truthiness (`x || default`) is modelled explicitly
  (`effTimeout`); fractional statistics use `Rat`.
-/

namespace GatherTS

/-- A dependency map (`IDependencyMap`): a JS object mapping a file to the
list of files it imports, modelled as an insertion-ordered association
list. -/
abbrev DepMap := List (String × List String)

/-- `m[k]` lookup on an insertion-ordered JS map/object. -/
def mapGetD (m : DepMap) (k : String) : Option (List String) :=
  (m.find? (fun p => p.1 == k)).map (fun p => p.2)

/-- `adjacencyList[file] || []` from the source. -/
def depsOf (g : DepMap) (k : String) : List String :=
  match mapGetD g k with
  | some vs => vs
  | none => []

/-- `Object.keys` of a dependency map. -/
def keysOf (g : DepMap) : List String := g.map Prod.fst

/-- All nodes appearing in some value list of the map. -/
def targetsOf (g : DepMap) : List String := (g.map Prod.snd).flatten

/-! ## DependencyCache (src/core/dependency/DependencyCache.ts) -/

/-- `IDependencyCacheEntry`. -/
structure CacheEntry where
  dependencies : DepMap
  timestamp : Int
  hash : String
  timeout : Nat
deriving DecidableEq, Repr

/-- `IDependencyCacheStats`. -/
structure CacheStats where
  size : Nat
  hits : Nat
  misses : Nat
  oldestEntry : Option Int
  averageAge : Rat
  invalidations : Nat
  errors : Nat
deriving DecidableEq, Repr

/-- State of a `DependencyCache` instance. -/
structure DependencyCache where
  cache : List (String × CacheEntry)
  /-- default TTL, `options.timeout || 5 * 60 * 1000` from the constructor -/
  timeout : Nat
  stats : CacheStats
  isInitialized : Bool
  cacheDuration : Nat
deriving DecidableEq, Repr

/-- `ICacheOperationOptions`. -/
structure CacheOpOptions where
  timeout : Option Nat := none
  force : Bool := false
deriving DecidableEq, Repr

/-- JS `Map.get`. -/
def cacheGet (m : List (String × CacheEntry)) (k : String) : Option CacheEntry :=
  (m.find? (fun p => p.1 == k)).map (fun p => p.2)

/-- JS `Map.has`. -/
def cacheHas (m : List (String × CacheEntry)) (k : String) : Bool :=
  m.any (fun p => p.1 == k)

/-- JS `Map.set`: updates in place when the key is present (keeping its
position), otherwise appends. -/
def cacheSet (m : List (String × CacheEntry)) (k : String) (v : CacheEntry) :
    List (String × CacheEntry) :=
  if m.any (fun p => p.1 == k) then
    m.map (fun p => if p.1 == k then (k, v) else p)
  else m ++ [(k, v)]

/-- JS `Map.delete` (keys are unique, so removing every binding of `k` is
the same as removing the one binding). -/
def cacheDelete (m : List (String × CacheEntry)) (k : String) :
    List (String × CacheEntry) :=
  m.filter (fun p => p.1 != k)

/-- `initializeStats()`. -/
def initializeStats : CacheStats :=
  { size := 0, hits := 0, misses := 0, oldestEntry := none, averageAge := 0,
    invalidations := 0, errors := 0 }

/-- JS `options.timeout || fallback`: `undefined` and `0` are falsy. -/
def effTimeout (o : Option Nat) (fallback : Nat) : Nat :=
  match o with
  | some t => if t = 0 then fallback else t
  | none => fallback

/-- `updateStats()`: recomputes size, oldest-entry timestamp and average
age from the live entries; all other fields (hits, misses, invalidations,
errors) are spread through unchanged. -/
def updateStats (c : DependencyCache) (now : Int) : DependencyCache :=
  let entries := c.cache.map Prod.snd
  let oldestTimestamp := entries.foldl (fun acc e => min acc e.timestamp) now
  let totalAge : Int := entries.foldl (fun acc e => acc + (now - e.timestamp)) 0
  { c with stats :=
      { c.stats with
        size := c.cache.length
        oldestEntry := if c.cache.length > 0 then some oldestTimestamp else none
        averageAge := if c.cache.length > 0 then (totalAge : Rat) / (c.cache.length : Rat) else 0 } }

/-- `computeHash`: `JSON.stringify(dependencies)` (keys and values are
assumed to contain no JSON metacharacters, which holds for file paths). -/
def computeHash (d : DepMap) : String :=
  "\x7b" ++ String.intercalate ","
    (d.map (fun p =>
      "\"" ++ p.1 ++ "\":[" ++
        String.intercalate "," (p.2.map (fun s => "\"" ++ s ++ "\"")) ++ "]")) ++ "\x7d"

/-- `DependencyCache.get`. -/
def DependencyCache.get (c : DependencyCache) (key : String)
    (options : CacheOpOptions) (now : Int) :
    Except String (Option DepMap × DependencyCache) :=
  if c.isInitialized = false then .error "Cache not initialized"
  else
    match cacheGet c.cache key with
    | none =>
        .ok (none, { c with stats := { c.stats with misses := c.stats.misses + 1 } })
    | some entry =>
        let age := now - entry.timestamp
        if age > (effTimeout options.timeout c.timeout : Int) then
          .ok (none,
            { c with
              cache := cacheDelete c.cache key
              stats := { c.stats with
                invalidations := c.stats.invalidations + 1
                misses := c.stats.misses + 1 } })
        else
          .ok (some entry.dependencies,
            { c with stats := { c.stats with hits := c.stats.hits + 1 } })

/-- `DependencyCache.set`. -/
def DependencyCache.set (c : DependencyCache) (key : String)
    (dependencies : DepMap) (options : CacheOpOptions) (now : Int) :
    Except String DependencyCache :=
  if c.isInitialized = false then .error "Cache not initialized"
  else
    let entry : CacheEntry :=
      { dependencies := dependencies
        timestamp := now
        hash := computeHash dependencies
        timeout := effTimeout options.timeout c.cacheDuration }
    let cache' :=
      if options.force then cacheSet c.cache key entry
      else if cacheHas c.cache key then c.cache
      else cacheSet c.cache key entry
    .ok (updateStats { c with cache := cache' } now)

/-- `DependencyCache.delete`. -/
def DependencyCache.delete (c : DependencyCache) (key : String) (now : Int) :
    Except String DependencyCache :=
  if c.isInitialized = false then .error "Cache not initialized"
  else
    if cacheHas c.cache key then
      .ok (updateStats { c with cache := cacheDelete c.cache key } now)
    else .ok c

/-- `DependencyCache.clear`. -/
def DependencyCache.clear (c : DependencyCache) :
    Except String DependencyCache :=
  if c.isInitialized = false then .error "Cache not initialized"
  else .ok { c with cache := [], stats := initializeStats }

/-- `DependencyCache.has`. -/
def DependencyCache.has (c : DependencyCache) (key : String) (now : Int) :
    Except String (Bool × DependencyCache) :=
  if c.isInitialized = false then .error "Cache not initialized"
  else
    match cacheGet c.cache key with
    | none => .ok (false, c)
    | some entry =>
        if now - entry.timestamp > (c.timeout : Int) then
          .ok (false,
            { c with
              cache := cacheDelete c.cache key
              stats := { c.stats with invalidations := c.stats.invalidations + 1 } })
        else .ok (true, c)

/-! ## IgnoreHandler (src/core/dependency/IgnoreHandler.ts) -/

/-- Whether `sub` occurs as a contiguous run inside `l`. -/
def listContainsSub (l sub : List Char) : Bool :=
  match l with
  | [] => sub.isEmpty
  | _ :: t => sub.isPrefixOf l || listContainsSub t sub

/-- Substring test, modelling JS `String.prototype.includes`. -/
def strContains (s sub : String) : Bool :=
  listContainsSub s.toList sub.toList

/-- The suffixes of `s` reachable by consuming zero or more non-`/`
characters from the front: the candidate remainders for a `*` wildcard. -/
def starCandidates : List Char → List (List Char)
  | [] => [[]]
  | c :: t => (c :: t) :: (if c = '/' then [] else starCandidates t)

/-- All suffixes of `s`: the candidate remainders for a `**` wildcard. -/
def allSuffixes : List Char → List (List Char)
  | [] => [[]]
  | c :: t => (c :: t) :: allSuffixes t

/-- Glob matching over characters for the micromatch pattern forms used by
the ignore engine: `**` matches any run of characters (crossing `/`),
`*` matches any run of non-`/` characters, `?` matches one character,
anything else matches literally. -/
def globMatch : List Char → List Char → Bool
  | [], s => s.isEmpty
  | '*' :: '*' :: ps, s => (allSuffixes s).any (fun t => globMatch ps t)
  | '*' :: ps, s => (starCandidates s).any (fun t => globMatch ps t)
  | '?' :: ps, s =>
      (match s with
       | [] => false
       | _ :: s' => globMatch ps s')
  | p :: ps, s =>
      (match s with
       | [] => false
       | c :: s' => c == p && globMatch ps s')

/-- Characters after the last `/`, for micromatch's `matchBase` option. -/
def basenameL (s : List Char) : List Char :=
  s.foldl (fun acc c => if c = '/' then [] else acc ++ [c]) []

/-- Positive micromatch match with `matchBase: true`: a pattern without a
slash is matched against the basename of the path. -/
def globBaseMatch (path pattern : List Char) : Bool :=
  if pattern.contains '/' then globMatch pattern path
  else globMatch pattern (basenameL path)

/-- Models `micromatch.isMatch(path, pattern, \x7bdot: true, matchBase: true\x7d)`
for the pattern forms exercised here: a leading `!` negates the rest of the
pattern. -/
def micromatchIsMatch (path pattern : String) : Bool :=
  match pattern.toList with
  | '!' :: rest => !(globBaseMatch path.toList rest)
  | _ => globBaseMatch path.toList pattern.toList

/-- `pattern.startsWith("!")`. -/
def isNegation (p : String) : Bool :=
  match p.toList with
  | '!' :: _ => true
  | _ => false

/-- State of an initialized `IgnoreHandler`.  The filesystem dependency is
abstracted: `relativize` models
`deps.fileSystem.getRelativePath(projectRoot, ·)` with separators
normalized to `/`, and `isMatch` models the `micromatch.isMatch` call with
its `dot`/`matchBase` options (instantiated with `micromatchIsMatch` for
concrete runs).  `validateFilePath`'s existence/readability checks, which
throw before classification and do not affect it, are elided: the model
describes paths that pass validation. -/
structure IgnoreHandler where
  patterns : List String
  relativize : String → String
  isMatch : String → String → Bool

/-- The `for (const pattern of this.patterns)` loop of `shouldIgnore`:
return on the first pattern the matcher accepts — `false` if it is a
negation pattern, `true` otherwise; `false` when no pattern matches. -/
def scanPatterns (isMatch : String → String → Bool) (relativePath : String) :
    List String → Bool
  | [] => false
  | p :: ps =>
      if isMatch relativePath p then
        if isNegation p then false else true
      else scanPatterns isMatch relativePath ps

/-- `IgnoreHandler.shouldIgnore`. -/
def shouldIgnore (h : IgnoreHandler) (filePath : String) : Bool :=
  let relativePath := h.relativize filePath
  if strContains relativePath "node_modules" then true
  else scanPatterns h.isMatch relativePath h.patterns

/-! ## Association-list lemmas for the cache map -/

theorem find?_replace (m : List (String × CacheEntry)) (k : String) (v : CacheEntry)
    (h : m.any (fun p => p.1 == k) = true) :
    (m.map (fun p => if p.1 == k then (k, v) else p)).find? (fun p => p.1 == k)
      = some (k, v) := by
  induction m with
  | nil => simp at h
  | cons p t ih =>
    simp only [List.map_cons]
    by_cases hp : (p.1 == k) = true
    · rw [if_pos hp, List.find?_cons_of_pos _ (by simp)]
    · rw [if_neg hp, List.find?_cons_of_neg _ (by simpa using hp)]
      apply ih
      simp only [List.any_cons, Bool.or_eq_true] at h
      exact h.resolve_left (by simpa using hp)

theorem find?_append_absent (m : List (String × CacheEntry)) (k : String) (v : CacheEntry)
    (h : m.any (fun p => p.1 == k) = false) :
    (m ++ [(k, v)]).find? (fun p => p.1 == k) = some (k, v) := by
  induction m with
  | nil => simp [List.find?_cons]
  | cons p t ih =>
    simp only [List.any_cons, Bool.or_eq_false_iff] at h
    simp only [List.cons_append, List.find?_cons, h.1]
    simpa [h.1] using ih h.2

theorem cacheGet_set_self (m : List (String × CacheEntry)) (k : String) (v : CacheEntry) :
    cacheGet (cacheSet m k v) k = some v := by
  unfold cacheSet cacheGet
  by_cases h : m.any (fun p => p.1 == k) = true
  · rw [if_pos h, find?_replace m k v h]
    rfl
  · simp only [Bool.not_eq_true] at h
    rw [if_neg (by simp [h]), find?_append_absent m k v h]
    rfl

theorem cacheGet_delete_self (m : List (String × CacheEntry)) (k : String) :
    cacheGet (cacheDelete m k) k = none := by
  unfold cacheDelete cacheGet
  have hnone : List.find? (fun p => p.1 == k) (List.filter (fun p => p.1 != k) m) = none := by
    rw [List.find?_eq_none]
    intro p hp
    have := List.of_mem_filter hp
    simpa [bne] using this
  rw [hnone]
  rfl

theorem cacheHas_eq_isSome (m : List (String × CacheEntry)) (k : String) :
    cacheHas m k = (cacheGet m k).isSome := by
  unfold cacheHas cacheGet
  rw [Bool.eq_iff_iff]
  simp [List.any_eq_true, List.find?_isSome]

/-! ## Cache theorems -/

/-- **C2**: `DependencyCache.set` on an initialized cache writes only when
the key is absent: with `force` unset a present entry (graph, timestamp,
hash) is left untouched, while an absent key — or any key under `force` —
ends up bound to the supplied graph with a fresh (`now`) timestamp.
Repeated `analyze()` calls inside the TTL window therefore never refresh a
live entry. -/
theorem dependencyCache_set_write_only_if_absent (c : DependencyCache) (key : String)
    (deps : DepMap) (opts : CacheOpOptions) (now : Int)
    (hinit : c.isInitialized = true) :
    ∃ c', DependencyCache.set c key deps opts now = .ok c' ∧
      (opts.force = false → ∀ e, cacheGet c.cache key = some e →
        cacheGet c'.cache key = some e) ∧
      ((opts.force = true ∨ cacheGet c.cache key = none) →
        cacheGet c'.cache key =
          some { dependencies := deps, timestamp := now, hash := computeHash deps,
                 timeout := effTimeout opts.timeout c.cacheDuration }) := by
  unfold DependencyCache.set
  rw [hinit]
  simp only [Bool.true_eq_false, if_false]
  refine ⟨_, rfl, ?_, ?_⟩
  · intro hforce e he
    have hhas : cacheHas c.cache key = true := by
      rw [cacheHas_eq_isSome, he]; rfl
    simpa [updateStats, hforce, hhas] using he
  · rintro (hforce | habsent)
    · simp [updateStats, hforce, cacheGet_set_self]
    · have hhas : cacheHas c.cache key = false := by
        rw [cacheHas_eq_isSome, habsent]; rfl
      by_cases hforce : opts.force = true
      · simp [updateStats, hforce, cacheGet_set_self]
      · simp only [Bool.not_eq_true] at hforce
        simp [updateStats, hforce, hhas, cacheGet_set_self]

/-- **C5**: TTL eviction on an initialized cache holding `key ↦ e`.  When
`now - e.timestamp` exceeds the applicable TTL (`options.timeout` when
given, else the default), `get` deletes the entry, bumps both the miss and
the invalidation counters and returns `null`; otherwise `get` is a hit,
bumps the hit counter and returns the stored graph.  `has` on an entry
older than the default timeout deletes it and returns `false`. -/
theorem dependencyCache_ttl_eviction (c : DependencyCache) (key : String)
    (opts : CacheOpOptions) (now : Int) (e : CacheEntry)
    (hinit : c.isInitialized = true) (he : cacheGet c.cache key = some e) :
    (now - e.timestamp > (effTimeout opts.timeout c.timeout : Int) →
      ∃ c', DependencyCache.get c key opts now = .ok (none, c') ∧
        cacheGet c'.cache key = none ∧
        c'.stats.misses = c.stats.misses + 1 ∧
        c'.stats.invalidations = c.stats.invalidations + 1) ∧
    (¬ now - e.timestamp > (effTimeout opts.timeout c.timeout : Int) →
      ∃ c', DependencyCache.get c key opts now = .ok (some e.dependencies, c') ∧
        c'.stats.hits = c.stats.hits + 1) ∧
    (now - e.timestamp > (c.timeout : Int) →
      ∃ c', DependencyCache.has c key now = .ok (false, c') ∧
        cacheGet c'.cache key = none ∧
        c'.stats.invalidations = c.stats.invalidations + 1) := by
  refine ⟨?_, ?_, ?_⟩
  · intro hexp
    unfold DependencyCache.get
    rw [hinit]
    simp only [Bool.true_eq_false, if_false, he, if_pos hexp]
    exact ⟨_, rfl, cacheGet_delete_self c.cache key, rfl, rfl⟩
  · intro hexp
    unfold DependencyCache.get
    rw [hinit]
    simp only [Bool.true_eq_false, if_false, he, if_neg hexp]
    exact ⟨_, rfl, rfl⟩
  · intro hexp
    unfold DependencyCache.has
    rw [hinit]
    simp only [Bool.true_eq_false, if_false, he, if_pos hexp]
    exact ⟨_, rfl, cacheGet_delete_self c.cache key, rfl⟩

/-- Witness for C2 at a concrete initialized cache. -/
def c2Cache : DependencyCache :=
  { cache := [("present", { dependencies := [("a", ["b"])], timestamp := 7,
                            hash := "h", timeout := 0 })]
    timeout := 300000
    stats := initializeStats
    isInitialized := true
    cacheDuration := 0 }

theorem dependencyCache_set_write_only_if_absent_witness :
    c2Cache.isInitialized = true ∧
    ∃ c', DependencyCache.set c2Cache "present" [("x", ["y"])] {} 99 = .ok c' ∧
      cacheGet c'.cache "present" =
        some { dependencies := [("a", ["b"])], timestamp := 7, hash := "h", timeout := 0 } := by
  refine ⟨rfl, ?_⟩
  obtain ⟨c', hrun, hkeep, -⟩ :=
    dependencyCache_set_write_only_if_absent c2Cache "present" [("x", ["y"])] {} 99 rfl
  exact ⟨c', hrun, hkeep rfl _ rfl⟩

theorem dependencyCache_ttl_eviction_witness :
    ((300101 : Int) - 0 > ((effTimeout (none : Option Nat) 300000 : Nat) : Int)) ∧
    ∃ c', DependencyCache.get c2Cache "present" {} 300101 = .ok (none, c') ∧
      cacheGet c'.cache "present" = none ∧
      c'.stats.misses = c2Cache.stats.misses + 1 ∧
      c'.stats.invalidations = c2Cache.stats.invalidations + 1 := by
  have h := (dependencyCache_ttl_eviction c2Cache "present" {} 300101
      { dependencies := [("a", ["b"])], timestamp := 7, hash := "h", timeout := 0 }
      rfl rfl).1
  exact ⟨by decide, h (by decide)⟩

/-- C9 as stated is false: after `delete` the hit/miss/invalidation
counters keep their old values (`updateStats` spreads them through);
only `clear` resets them. -/
def c9Cache : DependencyCache :=
  { cache := [("k", { dependencies := [("a", ["b"])], timestamp := 0,
                      hash := "h", timeout := 0 })]
    timeout := 300000
    stats := { size := 1, hits := 1, misses := 2, oldestEntry := some 0,
               averageAge := 0, invalidations := 3, errors := 0 }
    isInitialized := true
    cacheDuration := 0 }

/-- **C9 counterexample**: on an initialized cache with counters
(hits, misses, invalidations) = (1, 2, 3), `delete("k")` removes the
entry but the counters are *not* reset — they still read (1, 2, 3). -/
theorem dependencyCache_delete_keeps_counters_cex :
    (DependencyCache.delete c9Cache "k" 100).map
        (fun c => (c.stats.size, c.stats.hits, c.stats.misses, c.stats.invalidations))
      = .ok (0, 1, 2, 3) ∧ ¬ ((1, 2, 3) = ((0, 0, 0) : Nat × Nat × Nat)) := by
  exact ⟨rfl, by decide⟩

/-- **C9 (amended)**: on an initialized cache, `delete(key)` removes the
entry and recomputes only the derived size / oldest-entry / average-age
statistics, *preserving* the hit, miss and invalidation counters (and
leaves the cache untouched when the key is absent), while `clear()`
removes every entry and resets all statistics, counters included. -/
theorem dependencyCache_delete_clear_stats (c : DependencyCache) (key : String)
    (now : Int) (hinit : c.isInitialized = true) :
    (cacheHas c.cache key = true →
      ∃ c', DependencyCache.delete c key now = .ok c' ∧
        cacheGet c'.cache key = none ∧
        c'.stats.hits = c.stats.hits ∧
        c'.stats.misses = c.stats.misses ∧
        c'.stats.invalidations = c.stats.invalidations ∧
        c'.stats.size = (cacheDelete c.cache key).length) ∧
    (cacheHas c.cache key = false →
      DependencyCache.delete c key now = .ok c) ∧
    (∃ c', DependencyCache.clear c = .ok c' ∧
      c'.cache = [] ∧ c'.stats = initializeStats ∧
      c'.stats.hits = 0 ∧ c'.stats.misses = 0 ∧ c'.stats.invalidations = 0 ∧
      c'.stats.size = 0 ∧ c'.stats.oldestEntry = none ∧ c'.stats.averageAge = 0) := by
  refine ⟨?_, ?_, ?_⟩
  · intro hhas
    unfold DependencyCache.delete
    rw [hinit]
    simp only [Bool.true_eq_false, if_false, hhas, if_true]
    exact ⟨_, rfl, cacheGet_delete_self c.cache key, rfl, rfl, rfl, rfl⟩
  · intro hhas
    unfold DependencyCache.delete
    rw [hinit]
    simp [hhas]
  · unfold DependencyCache.clear
    rw [hinit]
    exact ⟨_, rfl, rfl, rfl, rfl, rfl, rfl, rfl, rfl, rfl⟩

theorem dependencyCache_delete_clear_stats_witness :
    cacheHas c9Cache.cache "k" = true ∧
    ∃ c', DependencyCache.delete c9Cache "k" 100 = .ok c' ∧
      cacheGet c'.cache "k" = none ∧ c'.stats.hits = c9Cache.stats.hits := by
  obtain ⟨c', hrun, hgone, hhits, -⟩ :=
    (dependencyCache_delete_clear_stats c9Cache "k" 100 rfl).1 rfl
  exact ⟨rfl, c', hrun, hgone, hhits⟩

/-! ## IgnoreHandler theorems -/

theorem scanPatterns_split (m : String → String → Bool) (r : String) :
    ∀ ps₁ (p : String) ps₂, (∀ q ∈ ps₁, m r q = false) → m r p = true →
      scanPatterns m r (ps₁ ++ p :: ps₂) = !(isNegation p) := by
  intro ps₁
  induction ps₁ with
  | nil =>
    intro p ps₂ _ hp
    simp only [List.nil_append, scanPatterns, hp, if_true]
    cases hneg : isNegation p <;> simp [hneg]
  | cons q qs ih =>
    intro p ps₂ hqs hp
    have hq : m r q = false := hqs q (by simp)
    simp only [List.cons_append, scanPatterns, hq]
    exact ih p ps₂ (fun x hx => hqs x (by simp [hx])) hp

theorem scanPatterns_none (m : String → String → Bool) (r : String) :
    ∀ ps, (∀ q ∈ ps, m r q = false) → scanPatterns m r ps = false := by
  intro ps
  induction ps with
  | nil => intro _; rfl
  | cons q qs ih =>
    intro hall
    have hq : m r q = false := hall q (by simp)
    simp only [scanPatterns, hq]
    exact ih (fun x hx => hall x (by simp [hx]))

/-- **C1**: `shouldIgnore` evaluates the combined pattern list in order and
returns on the first matching pattern — `false` when that pattern is a
negation, `true` otherwise — and returns `false` when no pattern matches.
(The concrete `["*.log", "!important.log"]` consequence is the witness.) -/
theorem shouldIgnore_first_match_wins (h : IgnoreHandler) (filePath : String)
    (hnm : strContains (h.relativize filePath) "node_modules" = false) :
    (∀ ps₁ (p : String) ps₂, h.patterns = ps₁ ++ p :: ps₂ →
      (∀ q ∈ ps₁, h.isMatch (h.relativize filePath) q = false) →
      h.isMatch (h.relativize filePath) p = true →
      shouldIgnore h filePath = !(isNegation p)) ∧
    ((∀ q ∈ h.patterns, h.isMatch (h.relativize filePath) q = false) →
      shouldIgnore h filePath = false) := by
  constructor
  · intro ps₁ p ps₂ hsplit hmiss hp
    unfold shouldIgnore
    simp only [hnm, Bool.false_eq_true, if_false, hsplit]
    exact scanPatterns_split h.isMatch (h.relativize filePath) ps₁ p ps₂ hmiss hp
  · intro hall
    unfold shouldIgnore
    simp only [hnm, Bool.false_eq_true, if_false]
    exact scanPatterns_none h.isMatch (h.relativize filePath) h.patterns hall

/-- Handler state after loading the built-in defaults followed by the user
patterns `["*.log", "!important.log"]`, with project-relative paths taken
verbatim and the concrete micromatch model as matcher. -/
def ihEx : IgnoreHandler :=
  { patterns := ["node_modules/**", ".git/**", "*.log", "!important.log"]
    relativize := id
    isMatch := micromatchIsMatch }

theorem shouldIgnore_first_match_wins_witness :
    strContains (ihEx.relativize "important.log") "node_modules" = false ∧
    shouldIgnore ihEx "important.log" = true := by
  have h := (shouldIgnore_first_match_wins ihEx "important.log" (by decide)).1
    ["node_modules/**", ".git/**"] "*.log" ["!important.log"] rfl (by decide) (by decide)
  exact ⟨by decide, h.trans (by decide)⟩

/-- **C8**: whenever the project-root-relative form of a path contains the
substring `node_modules` (in particular, whenever it contains that vendor
directory segment), `shouldIgnore` answers `true` regardless of the
pattern list — before any pattern, negations included, is consulted. -/
theorem shouldIgnore_node_modules_unconditional (h : IgnoreHandler) (filePath : String)
    (hnm : strContains (h.relativize filePath) "node_modules" = true) :
    ∀ ps : List String, shouldIgnore { h with patterns := ps } filePath = true := by
  intro ps
  unfold shouldIgnore
  simp only [hnm, if_true]

theorem shouldIgnore_node_modules_unconditional_witness :
    strContains (ihEx.relativize "node_modules/pkg/index.js") "node_modules" = true ∧
    shouldIgnore { ihEx with patterns := ["!node_modules/**"] } "node_modules/pkg/index.js"
      = true := by
  exact ⟨by decide,
    shouldIgnore_node_modules_unconditional ihEx "node_modules/pkg/index.js" (by decide)
      ["!node_modules/**"]⟩

/-! ## DependencyAnalyzer.validateEntryFiles
(src/core/dependency/DependencyAnalyzer.ts) -/

/-- JS `String.prototype.trim`. -/
def jsTrim (s : String) : String :=
  ⟨((s.toList.dropWhile Char.isWhitespace).reverse.dropWhile Char.isWhitespace).reverse⟩

/-- The filesystem / ignore-handler dependencies of the analyzer,
abstracted: `resolvePath` models `fileSystem.resolvePath(rootDir, ·)`,
`pathExists` models `fileSystem.exists`, and `ignores` models
`ignoreHandler.shouldIgnore` on resolved paths. -/
structure FsEnv where
  resolvePath : String → String → String
  pathExists : String → Bool
  ignores : String → Bool

/-- One entry of `IDependencyValidationResult.errors`. -/
structure EntryError where
  file : String
  error : String
deriving DecidableEq, Repr

/-- `IDependencyValidationResult`. -/
structure ValidationResult where
  isValid : Bool
  validFiles : List String
  invalidFiles : List String
  errors : List EntryError
deriving DecidableEq, Repr

/-- One iteration of the `for (const file of entryFiles)` loop of
`validateEntryFiles`: the two `throw new ValidationError` sites are the
caught failure cases, recorded with the thrown message. -/
def validateEntryStep (env : FsEnv) (inm : Bool) (rootDir : String)
    (acc : ValidationResult) (file : String) : ValidationResult :=
  let resolvedPath := env.resolvePath rootDir (jsTrim file)
  if !env.pathExists resolvedPath then
    { acc with isValid := false
               invalidFiles := acc.invalidFiles ++ [file]
               errors := acc.errors ++ [⟨file, "Entry file not found"⟩] }
  else if !inm && env.ignores resolvedPath then
    { acc with isValid := false
               invalidFiles := acc.invalidFiles ++ [file]
               errors := acc.errors ++ [⟨file, "Entry file is ignored"⟩] }
  else { acc with validFiles := acc.validFiles ++ [resolvedPath] }

/-- The `DependencyAnalysisError` value `handleError` throws: only a
message plus the optional `context?.entryPoint` / `context?.dependencies`
fields (stored as `failedDependencies`). -/
structure AnalysisError where
  message : String
  entryPoint : Option String
  failedDependencies : Option (List String)
deriving DecidableEq, Repr

/-- `handleError(operation, error)` as called with **no** `context`
argument (the validation call site): it reads only `error.message` and
builds a `DependencyAnalysisError` whose entry point and dependency list
are `undefined` — whatever details the inner error carried are dropped. -/
def handleErrorNoContext (operation message : String) : AnalysisError :=
  { message := "Dependency analysis " ++ operation ++ " failed: " ++ message
    entryPoint := none
    failedDependencies := none }

/-- The initial `validationResult` record of `validateEntryFiles`. -/
def initValidation : ValidationResult :=
  { isValid := true, validFiles := [], invalidFiles := [], errors := [] }

/-- `DependencyAnalyzer.validateEntryFiles` (on an initialized analyzer):
processes every file, accumulating failures in the validation result, then
raises exactly one error — the inner `ValidationError` (message
`"Entry file validation failed"`, details `{errors, invalidFiles}`) is
passed to `handleError` *without* a context, which wraps only its message —
or returns the resolved valid files. -/
def validateEntryFiles (env : FsEnv) (entryFiles : List String) (rootDir : String)
    (inm : Bool) : Except AnalysisError (List String) :=
  if (entryFiles.foldl (validateEntryStep env inm rootDir) initValidation).isValid then
    .ok (entryFiles.foldl (validateEntryStep env inm rootDir) initValidation).validFiles
  else .error (handleErrorNoContext "validate" "Entry file validation failed")

/-- Whether one entry file fails validation. -/
def entryInvalid (env : FsEnv) (rootDir : String) (inm : Bool) (file : String) : Bool :=
  let resolved := env.resolvePath rootDir (jsTrim file)
  !env.pathExists resolved || (!inm && env.ignores resolved)

/-- The message validation records for an invalid entry file. -/
def entryFailReason (env : FsEnv) (rootDir : String) (_inm : Bool) (file : String) : String :=
  let resolved := env.resolvePath rootDir (jsTrim file)
  if env.pathExists resolved = false then "Entry file not found" else "Entry file is ignored"

theorem validateEntryFold_spec (env : FsEnv) (inm : Bool) (rootDir : String) :
    ∀ (E : List String) (acc : ValidationResult),
      E.foldl (validateEntryStep env inm rootDir) acc =
        { isValid := acc.isValid && E.all (fun f => !entryInvalid env rootDir inm f)
          validFiles := acc.validFiles ++
            (E.filter (fun f => !entryInvalid env rootDir inm f)).map
              (fun f => env.resolvePath rootDir (jsTrim f))
          invalidFiles := acc.invalidFiles ++ E.filter (fun f => entryInvalid env rootDir inm f)
          errors := acc.errors ++
            (E.filter (fun f => entryInvalid env rootDir inm f)).map
              (fun f => ⟨f, entryFailReason env rootDir inm f⟩) } := by
  intro E
  induction E with
  | nil => intro acc; simp
  | cons f fs ih =>
    intro acc
    rw [List.foldl_cons, ih]
    by_cases hex : env.pathExists (env.resolvePath rootDir (jsTrim f)) = false
    · have hinv : entryInvalid env rootDir inm f = true := by
        simp [entryInvalid, hex]
      have hstep : validateEntryStep env inm rootDir acc f =
          { acc with isValid := false
                     invalidFiles := acc.invalidFiles ++ [f]
                     errors := acc.errors ++ [⟨f, "Entry file not found"⟩] } := by
        unfold validateEntryStep
        rw [if_pos (by simp [hex])]
      have hreason : entryFailReason env rootDir inm f = "Entry file not found" := by
        simp [entryFailReason, hex]
      rw [hstep]
      simp [List.filter_cons, List.all_cons, hinv, hreason, List.append_assoc]
    · simp only [Bool.not_eq_false] at hex
      by_cases hign : (!inm && env.ignores (env.resolvePath rootDir (jsTrim f))) = true
      · have hinv : entryInvalid env rootDir inm f = true := by
          simp only [entryInvalid, hign]
          simp
        have hstep : validateEntryStep env inm rootDir acc f =
            { acc with isValid := false
                       invalidFiles := acc.invalidFiles ++ [f]
                       errors := acc.errors ++ [⟨f, "Entry file is ignored"⟩] } := by
          unfold validateEntryStep
          rw [if_neg (by simp [hex]), if_pos hign]
        have hreason : entryFailReason env rootDir inm f = "Entry file is ignored" := by
          simp [entryFailReason, hex]
        rw [hstep]
        simp [List.filter_cons, List.all_cons, hinv, hreason, List.append_assoc]
      · have hinv : entryInvalid env rootDir inm f = false := by
          simp only [entryInvalid, Bool.or_eq_false_iff]
          exact ⟨by simp [hex], by simpa using hign⟩
        have hstep : validateEntryStep env inm rootDir acc f =
            { acc with validFiles := acc.validFiles ++
                [env.resolvePath rootDir (jsTrim f)] } := by
          unfold validateEntryStep
          rw [if_neg (by simp [hex]), if_neg (by simp [hign])]
        rw [hstep]
        simp [List.filter_cons, List.all_cons, hinv, List.append_assoc]

/-- **C7 (amended)**: `validateEntryFiles` checks every entry file before
failing: the loop accumulates *every* invalid file with its individual
reason in the validation result, and exactly one error is raised only
after all files have been checked — but that error, produced by
`handleError` called without a context, carries only the fixed
validation-failure message with `undefined` entry point and dependency
list: the accumulated per-file details are discarded.  When every entry
file is valid, the resolved paths are returned in input order. -/
theorem validateEntryFiles_one_error_after_loop (env : FsEnv) (E : List String)
    (rootDir : String) (inm : Bool) :
    ((∃ f ∈ E, entryInvalid env rootDir inm f = true) →
      validateEntryFiles env E rootDir inm =
        .error { message := "Dependency analysis validate failed: Entry file validation failed"
                 entryPoint := none
                 failedDependencies := none } ∧
      (E.foldl (validateEntryStep env inm rootDir) initValidation).errors =
        (E.filter (fun f => entryInvalid env rootDir inm f)).map
          (fun f => ⟨f, entryFailReason env rootDir inm f⟩) ∧
      (E.foldl (validateEntryStep env inm rootDir) initValidation).invalidFiles =
        E.filter (fun f => entryInvalid env rootDir inm f)) ∧
    ((∀ f ∈ E, entryInvalid env rootDir inm f = false) →
      validateEntryFiles env E rootDir inm =
        .ok (E.map (fun f => env.resolvePath rootDir (jsTrim f)))) := by
  have hfold := validateEntryFold_spec env inm rootDir E initValidation
  constructor
  · rintro ⟨f, hf, hinv⟩
    have hnotall : E.all (fun f => !entryInvalid env rootDir inm f) = false := by
      rw [List.all_eq_false]
      exact ⟨f, hf, by simp [hinv]⟩
    have hvalid : (E.foldl (validateEntryStep env inm rootDir) initValidation).isValid
        = false := by
      rw [hfold]
      simp [initValidation, hnotall]
    refine ⟨?_, ?_, ?_⟩
    · unfold validateEntryFiles
      rw [if_neg (by simp [hvalid])]
      rfl
    · rw [hfold]
      simp [initValidation]
    · rw [hfold]
      simp [initValidation]
  · intro hall
    have hallb : E.all (fun f => !entryInvalid env rootDir inm f) = true := by
      rw [List.all_eq_true]
      intro f hf
      simp [hall f hf]
    have hfilter : E.filter (fun f => !entryInvalid env rootDir inm f) = E :=
      List.filter_eq_self.mpr (fun f hf => by simp [hall f hf])
    unfold validateEntryFiles
    rw [if_pos (by rw [hfold]; simp [initValidation, hallb])]
    rw [hfold]
    simp [initValidation, hfilter]

/-- Concrete environment for C7: `missing.ts` does not exist, `debug.log`
exists but is ignored, `ok.ts` is valid. -/
def fsEnvC7 : FsEnv :=
  { resolvePath := fun root file => root ++ "/" ++ file
    pathExists := fun p => p != "/proj/missing.ts"
    ignores := fun p => p == "/proj/debug.log" }

/-- **C7 counterexample**: two different invalid entry lists — one with a
single missing file, one with a missing file *and* an ignored file —
raise the *identical* error, a fixed `DependencyAnalysisError` whose
entry point and dependency list are `undefined`; so the raised error's
details carry neither the invalid files nor their individual reasons,
contrary to the claim. -/
theorem validateEntryFiles_details_dropped_cex :
    validateEntryFiles fsEnvC7 ["missing.ts"] "/proj" false =
      .error { message := "Dependency analysis validate failed: Entry file validation failed"
               entryPoint := none
               failedDependencies := none } ∧
    validateEntryFiles fsEnvC7 ["missing.ts", "debug.log"] "/proj" false =
      validateEntryFiles fsEnvC7 ["missing.ts"] "/proj" false := by
  exact ⟨rfl, rfl⟩

theorem validateEntryFiles_one_error_after_loop_witness :
    (∃ f ∈ ["missing.ts", "debug.log", "ok.ts"],
      entryInvalid fsEnvC7 "/proj" false f = true) ∧
    validateEntryFiles fsEnvC7 ["missing.ts", "debug.log", "ok.ts"] "/proj" false =
      .error { message := "Dependency analysis validate failed: Entry file validation failed"
               entryPoint := none
               failedDependencies := none } ∧
    (["missing.ts", "debug.log", "ok.ts"].foldl
        (validateEntryStep fsEnvC7 false "/proj") initValidation).errors =
      [⟨"missing.ts", "Entry file not found"⟩, ⟨"debug.log", "Entry file is ignored"⟩] := by
  have hx : ∃ f ∈ ["missing.ts", "debug.log", "ok.ts"],
      entryInvalid fsEnvC7 "/proj" false f = true := ⟨"missing.ts", by simp, by decide⟩
  obtain ⟨herr, hacc, -⟩ :=
    (validateEntryFiles_one_error_after_loop fsEnvC7 ["missing.ts", "debug.log", "ok.ts"]
      "/proj" false).1 hx
  exact ⟨hx, herr, hacc.trans (by rfl)⟩

/-! ## DependencyAnalyzer.gatherDependencies -/

/-- The `for (const child of children)` loop body of `gatherDependencies`:
each non-ignored, unvisited child is marked visited and enqueued at
`depth + 1`. -/
def processChildren (ign : String → Bool) (depth : Nat) :
    List String → List (String × Nat) → List String → List (String × Nat) × List String
  | [], queueAcc, visited => (queueAcc, visited)
  | child :: rest, queueAcc, visited =>
      if !ign child && !visited.contains child then
        processChildren ign depth rest (queueAcc ++ [(child, depth + 1)]) (visited ++ [child])
      else processChildren ign depth rest queueAcc visited

/-- The children freshly marked visited by one `processChildren` pass. -/
def newKids (ign : String → Bool) : List String → List String → List String
  | [], _ => []
  | child :: rest, visited =>
      if !ign child && !visited.contains child then
        child :: newKids ign rest (visited ++ [child])
      else newKids ign rest visited

theorem processChildren_eq (ign : String → Bool) (depth : Nat) :
    ∀ (cs : List String) (qa : List (String × Nat)) (v : List String),
      processChildren ign depth cs qa v =
        (qa ++ (newKids ign cs v).map (fun c => (c, depth + 1)), v ++ newKids ign cs v) := by
  intro cs
  induction cs with
  | nil => intro qa v; simp [processChildren, newKids]
  | cons child rest ih =>
    intro qa v
    by_cases h : ign child = false ∧ child ∉ v
    · simp [processChildren, newKids, ih, h, List.append_assoc]
    · simp [processChildren, newKids, ih, h]

theorem newKids_mem (ign : String → Bool) :
    ∀ (cs v : List String) (x : String), x ∈ newKids ign cs v →
      x ∈ cs ∧ ign x = false ∧ x ∉ v := by
  intro cs
  induction cs with
  | nil => intro v x hx; simp [newKids] at hx
  | cons child rest ih =>
    intro v x hx
    by_cases hc : (!ign child && !v.contains child) = true
    · simp only [newKids, hc, if_true, List.mem_cons] at hx
      rcases hx with rfl | hx
      · simp only [Bool.and_eq_true, Bool.not_eq_true'] at hc
        exact ⟨by simp, hc.1, by simpa using hc.2⟩
      · obtain ⟨hmem, hign, hnv⟩ := ih (v ++ [child]) x hx
        exact ⟨by simp [hmem], hign, fun hv => hnv (by simp [hv])⟩
    · simp only [newKids, hc, if_false] at hx
      obtain ⟨hmem, hign, hnv⟩ := ih v x hx
      exact ⟨by simp [hmem], hign, hnv⟩

theorem newKids_covers (ign : String → Bool) :
    ∀ (cs v : List String) (c : String), c ∈ cs → ign c = false →
      c ∈ v ++ newKids ign cs v := by
  intro cs
  induction cs with
  | nil => intro v c hc; simp at hc
  | cons child rest ih =>
    intro v c hc hig
    by_cases hch : (!ign child && !v.contains child) = true
    · simp only [newKids, hch, if_true]
      rcases List.mem_cons.mp hc with rfl | hc'
      · simp
      · have := ih (v ++ [child]) c hc' hig
        simp only [List.mem_append, List.mem_singleton, List.mem_cons] at this ⊢
        tauto
    · simp only [newKids, hch, if_false]
      rcases List.mem_cons.mp hc with rfl | hc'
      · simp only [Bool.and_eq_true, Bool.not_eq_true', not_and] at hch
        by_cases hv : c ∈ v
        · simp [hv]
        · exact absurd (by simpa using hv) (hch hig)
      · have := ih v c hc' hig
        simp only [List.mem_append, List.mem_cons] at this ⊢
        tauto

theorem newKids_nodup_append (ign : String → Bool) :
    ∀ (cs v : List String), v.Nodup → (v ++ newKids ign cs v).Nodup := by
  intro cs
  induction cs with
  | nil =>
    intro v hv
    simp only [newKids, List.append_nil]
    exact hv
  | cons child rest ih =>
    intro v hv
    by_cases hch : (!ign child && !v.contains child) = true
    · simp only [newKids, hch, if_true]
      have hnc : child ∉ v := by
        simp only [Bool.and_eq_true, Bool.not_eq_true'] at hch
        simpa using hch.2
      have hv' : (v ++ [child]).Nodup := by
        simp [List.nodup_append, hv, hnc]
      have := ih (v ++ [child]) hv'
      simpa [List.append_assoc] using this
    · simp only [newKids, hch, if_false]
      exact ih v hv

/-- `maxDepth !== undefined && depth >= maxDepth`. -/
def depthCutoff (maxDepth : Option Nat) (depth : Nat) : Bool :=
  match maxDepth with
  | some md => decide (depth ≥ md)
  | none => false

/-- Nodes of the graph's value lists not yet visited — the quantity the
breadth-first loop shrinks whenever it marks new nodes visited. -/
def gatherMeasure (g : DepMap) (visited : List String) : Nat :=
  ((targetsOf g).toFinset \ visited.toFinset).card

theorem depsOf_sub_targets (g : DepMap) (k : String) :
    ∀ x ∈ depsOf g k, x ∈ targetsOf g := by
  intro x hx
  unfold depsOf at hx
  cases hget : mapGetD g k with
  | none => rw [hget] at hx; simp at hx
  | some vs =>
    rw [hget] at hx
    obtain ⟨p, hp, hpv⟩ : ∃ p, g.find? (fun p => p.1 == k) = some p ∧ p.2 = vs := by
      unfold mapGetD at hget
      cases hf : g.find? (fun p => p.1 == k) with
      | none => rw [hf] at hget; simp at hget
      | some p =>
        rw [hf] at hget
        simp only [Option.map_some', Option.some_inj] at hget
        exact ⟨p, rfl, hget⟩
    have hmem : p ∈ g := List.mem_of_find?_eq_some hp
    unfold targetsOf
    rw [List.mem_flatten]
    exact ⟨vs, by rw [← hpv]; exact List.mem_map_of_mem Prod.snd hmem, hx⟩

theorem gatherMeasure_append_le (g : DepMap) (v extra : List String) :
    gatherMeasure g (v ++ extra) ≤ gatherMeasure g v := by
  apply Finset.card_le_card
  intro x hx
  simp only [Finset.mem_sdiff, List.mem_toFinset, List.mem_append] at hx ⊢
  exact ⟨hx.1, fun h => hx.2 (Or.inl h)⟩

theorem gatherMeasure_append_lt (g : DepMap) (v extra : List String) (x : String)
    (hxt : x ∈ targetsOf g) (hxv : x ∉ v) (hxe : x ∈ extra) :
    gatherMeasure g (v ++ extra) < gatherMeasure g v := by
  apply Finset.card_lt_card
  rw [Finset.ssubset_iff_subset_ne]
  constructor
  · intro y hy
    simp only [Finset.mem_sdiff, List.mem_toFinset, List.mem_append] at hy ⊢
    exact ⟨hy.1, fun h => hy.2 (Or.inl h)⟩
  · intro heq
    have hx1 : x ∈ (targetsOf g).toFinset \ v.toFinset := by
      simp [Finset.mem_sdiff, List.mem_toFinset, hxt, hxv]
    rw [← heq] at hx1
    simp [Finset.mem_sdiff, List.mem_toFinset, List.mem_append, hxe] at hx1

/-- The `while (queue.length > 0)` loop of `gatherDependencies`: dequeue
`(file, depth)`; when the depth cutoff applies, do not expand; otherwise
mark and enqueue the non-ignored unvisited children at `depth + 1`; return
the visited set (in insertion = discovery order) when the queue drains. -/
def gatherAux (g : DepMap) (ign : String → Bool) (maxDepth : Option Nat) :
    List (String × Nat) → List String → List String
  | [], visited => visited
  | (file, depth) :: rest, visited =>
      if depthCutoff maxDepth depth then gatherAux g ign maxDepth rest visited
      else
        let step := processChildren ign depth (depsOf g file) [] visited
        gatherAux g ign maxDepth (rest ++ step.1) step.2
termination_by queue visited => (gatherMeasure g visited, queue.length)
decreasing_by
· exact Prod.Lex.right _ (by simp)
· rw [processChildren_eq]
  cases hk : newKids ign (depsOf g file) visited with
  | nil =>
    simp only [List.map_nil, List.append_nil]
    exact Prod.Lex.right _ (by simp)
  | cons x xs =>
    apply Prod.Lex.left
    obtain ⟨hmem, -, hnv⟩ :=
      newKids_mem ign (depsOf g file) visited x (by rw [hk]; simp)
    exact gatherMeasure_append_lt g visited (x :: xs) x
      (depsOf_sub_targets g file x hmem) hnv (by simp)

theorem gatherAux_nil (g : DepMap) (ign : String → Bool) (md : Option Nat)
    (visited : List String) :
    gatherAux g ign md [] visited = visited := by
  simp [gatherAux]

theorem gatherAux_cons_cut (g : DepMap) (ign : String → Bool) (md : Option Nat)
    (file : String) (depth : Nat) (rest : List (String × Nat)) (visited : List String)
    (h : depthCutoff md depth = true) :
    gatherAux g ign md ((file, depth) :: rest) visited = gatherAux g ign md rest visited := by
  simp only [gatherAux, h, if_true]

theorem gatherAux_cons_expand (g : DepMap) (ign : String → Bool) (md : Option Nat)
    (file : String) (depth : Nat) (rest : List (String × Nat)) (visited : List String)
    (h : ¬ depthCutoff md depth = true) :
    gatherAux g ign md ((file, depth) :: rest) visited =
      gatherAux g ign md
        (rest ++ (newKids ign (depsOf g file) visited).map (fun c => (c, depth + 1)))
        (visited ++ newKids ign (depsOf g file) visited) := by
  simp only [gatherAux, processChildren_eq, List.nil_append]
  rw [if_neg h]

theorem gatherAux_grows (g : DepMap) (ign : String → Bool) (md : Option Nat) :
    ∀ (queue : List (String × Nat)) (visited : List String) (x : String),
      x ∈ visited → x ∈ gatherAux g ign md queue visited := by
  intro queue visited
  induction queue, visited using gatherAux.induct g ign md with
  | case1 visited =>
    intro x hx
    simpa [gatherAux_nil] using hx
  | case2 file depth rest visited hcut ih =>
    intro x hx
    rw [gatherAux_cons_cut g ign md file depth rest visited hcut]
    exact ih x hx
  | case3 file depth rest visited hcut step ih =>
    intro x hx
    rw [gatherAux_cons_expand g ign md file depth rest visited hcut]
    have hstep : step = ((newKids ign (depsOf g file) visited).map (fun c => (c, depth + 1)),
        visited ++ newKids ign (depsOf g file) visited) := by
      simpa using processChildren_eq ign depth (depsOf g file) [] visited
    rw [hstep] at ih
    exact ih x (by simp [hx])

theorem gatherAux_sound (g : DepMap) (ign : String → Bool) (P : String → Prop)
    (hclosed : ∀ y, P y → ∀ c ∈ depsOf g y, ign c = false → P c) :
    ∀ (queue : List (String × Nat)) (visited : List String),
      (∀ x ∈ visited, P x) → (∀ p ∈ queue, P p.1) →
      ∀ x ∈ gatherAux g ign none queue visited, P x := by
  intro queue visited
  induction queue, visited using gatherAux.induct g ign none with
  | case1 visited =>
    intro hv _ x hx
    rw [gatherAux_nil] at hx
    exact hv x hx
  | case2 file depth rest visited hcut ih =>
    exact absurd hcut (by simp [depthCutoff])
  | case3 file depth rest visited hcut step ih =>
    intro hv hq x hx
    rw [gatherAux_cons_expand g ign none file depth rest visited hcut] at hx
    have hstep : step = ((newKids ign (depsOf g file) visited).map (fun c => (c, depth + 1)),
        visited ++ newKids ign (depsOf g file) visited) := by
      simpa using processChildren_eq ign depth (depsOf g file) [] visited
    rw [hstep] at ih
    refine ih ?_ ?_ x hx
    · intro y hy
      rcases List.mem_append.mp hy with hy | hy
      · exact hv y hy
      · obtain ⟨hmem, hig, -⟩ := newKids_mem ign (depsOf g file) visited y hy
        exact hclosed file (hq (file, depth) (by simp)) y hmem hig
    · intro p hp
      rcases List.mem_append.mp hp with hp | hp
      · exact hq p (by simp [hp])
      · obtain ⟨c, hc, rfl⟩ := List.mem_map.mp hp
        obtain ⟨hmem, hig, -⟩ := newKids_mem ign (depsOf g file) visited c hc
        exact hclosed file (hq (file, depth) (by simp)) c hmem hig

theorem gatherAux_closed (g : DepMap) (ign : String → Bool) :
    ∀ (queue : List (String × Nat)) (visited : List String),
      (∀ p ∈ queue, p.1 ∈ visited) →
      (∀ v ∈ visited, v ∉ queue.map Prod.fst →
        ∀ c ∈ depsOf g v, ign c = false → c ∈ visited) →
      ∀ v ∈ gatherAux g ign none queue visited,
        ∀ c ∈ depsOf g v, ign c = false → c ∈ gatherAux g ign none queue visited := by
  intro queue visited
  induction queue, visited using gatherAux.induct g ign none with
  | case1 visited =>
    intro _ hproc v hv c hc hig
    rw [gatherAux_nil] at hv ⊢
    exact hproc v hv (by simp) c hc hig
  | case2 file depth rest visited hcut ih =>
    exact absurd hcut (by simp [depthCutoff])
  | case3 file depth rest visited hcut step ih =>
    intro hqv hproc
    rw [gatherAux_cons_expand g ign none file depth rest visited hcut]
    have hstep : step = ((newKids ign (depsOf g file) visited).map (fun c => (c, depth + 1)),
        visited ++ newKids ign (depsOf g file) visited) := by
      simpa using processChildren_eq ign depth (depsOf g file) [] visited
    rw [hstep] at ih
    apply ih
    · intro p hp
      rcases List.mem_append.mp hp with hp | hp
      · exact List.mem_append.mpr (Or.inl (hqv p (by simp [hp])))
      · obtain ⟨c, hc, rfl⟩ := List.mem_map.mp hp
        exact List.mem_append.mpr (Or.inr hc)
    · intro v hv hvq c hc hig
      have hvq' : v ∉ rest.map Prod.fst ∧ v ∉ newKids ign (depsOf g file) visited := by
        simp only [List.map_append, List.map_map, List.mem_append, not_or] at hvq
        refine ⟨hvq.1, fun h => hvq.2 ?_⟩
        exact List.mem_map.mpr ⟨v, h, rfl⟩
      rcases List.mem_append.mp hv with hv | hv
      · by_cases hvf : v = file
        · subst hvf
          exact newKids_covers ign (depsOf g v) visited c hc hig
        · have hvqmain : v ∉ ((file, depth) :: rest).map Prod.fst := by
            simp only [List.map_cons, List.mem_cons, not_or]
            exact ⟨hvf, hvq'.1⟩
          exact List.mem_append.mpr (Or.inl (hproc v hv hvqmain c hc hig))
      · exact absurd hv hvq'.2

theorem gatherAux_nodup (g : DepMap) (ign : String → Bool) (md : Option Nat) :
    ∀ (queue : List (String × Nat)) (visited : List String),
      visited.Nodup → (gatherAux g ign md queue visited).Nodup := by
  intro queue visited
  induction queue, visited using gatherAux.induct g ign md with
  | case1 visited =>
    intro h
    simpa [gatherAux_nil] using h
  | case2 file depth rest visited hcut ih =>
    intro h
    rw [gatherAux_cons_cut g ign md file depth rest visited hcut]
    exact ih h
  | case3 file depth rest visited hcut step ih =>
    intro h
    rw [gatherAux_cons_expand g ign md file depth rest visited hcut]
    have hstep : step = ((newKids ign (depsOf g file) visited).map (fun c => (c, depth + 1)),
        visited ++ newKids ign (depsOf g file) visited) := by
      simpa using processChildren_eq ign depth (depsOf g file) [] visited
    rw [hstep] at ih
    exact ih (newKids_nodup_append ign (depsOf g file) visited h)

theorem gatherAux_some_zero (g : DepMap) (ign : String → Bool) :
    ∀ (queue : List (String × Nat)) (visited : List String),
      gatherAux g ign (some 0) queue visited = visited := by
  intro queue
  induction queue with
  | nil => intro visited; exact gatherAux_nil g ign (some 0) visited
  | cons p rest ih =>
    intro visited
    obtain ⟨file, depth⟩ := p
    rw [gatherAux_cons_cut g ign (some 0) file depth rest visited (by simp [depthCutoff])]
    exact ih visited

/-- The `for (const file of entryFiles)` seeding loop of
`gatherDependencies`: every non-ignored entry is enqueued at depth 0 and
added to the visited set (a JS `Set`, so re-adding a duplicate entry keeps
the first occurrence). -/
def initEntryStep (ign : String → Bool) (acc : List (String × Nat) × List String)
    (file : String) : List (String × Nat) × List String :=
  if !ign file then
    (acc.1 ++ [(file, 0)], if acc.2.contains file then acc.2 else acc.2 ++ [file])
  else acc

def initQueueVisited (ign : String → Bool) (entryFiles : List String) :
    List (String × Nat) × List String :=
  entryFiles.foldl (initEntryStep ign) ([], [])

/-- `DependencyAnalyzer.gatherDependencies` (on an initialized analyzer),
with `ign` abstracting `deps.ignoreHandler.shouldIgnore`.  Returns
`Array.from(visited)`, i.e. the visited list in insertion (= discovery)
order. -/
def gatherDependencies (g : DepMap) (ign : String → Bool) (entryFiles : List String)
    (maxDepth : Option Nat) : List String :=
  let init := initQueueVisited ign entryFiles
  gatherAux g ign maxDepth init.1 init.2

theorem initQV_fold_spec (ign : String → Bool) :
    ∀ (E : List String) (acc : List (String × Nat) × List String),
      (∀ x, x ∈ acc.2 ↔ x ∈ acc.1.map Prod.fst) → acc.2.Nodup →
      (∀ x, x ∈ (E.foldl (initEntryStep ign) acc).2 ↔
          x ∈ (E.foldl (initEntryStep ign) acc).1.map Prod.fst) ∧
      (E.foldl (initEntryStep ign) acc).2.Nodup ∧
      (∀ x, x ∈ (E.foldl (initEntryStep ign) acc).2 ↔
          x ∈ acc.2 ∨ (x ∈ E ∧ ign x = false)) := by
  intro E
  induction E with
  | nil =>
    intro acc hiff hnd
    exact ⟨hiff, hnd, fun x => by simp⟩
  | cons file fs ih =>
    intro acc hiff hnd
    rw [List.foldl_cons]
    by_cases hig : ign file = true
    · have hstep : initEntryStep ign acc file = acc := by
        simp [initEntryStep, hig]
      rw [hstep]
      obtain ⟨h1, h2, h3⟩ := ih acc hiff hnd
      refine ⟨h1, h2, fun x => ?_⟩
      rw [h3 x]
      constructor
      · rintro (hx | ⟨hxf, hxi⟩)
        · exact Or.inl hx
        · exact Or.inr ⟨by simp [hxf], hxi⟩
      · rintro (hx | ⟨hxf, hxi⟩)
        · exact Or.inl hx
        · rcases List.mem_cons.mp hxf with rfl | hxf'
          · rw [hig] at hxi; cases hxi
          · exact Or.inr ⟨hxf', hxi⟩
    · simp only [Bool.not_eq_true] at hig
      by_cases hcont : acc.2.contains file = true
      · have hfv : file ∈ acc.2 := by simpa using hcont
        have hstep : initEntryStep ign acc file = (acc.1 ++ [(file, 0)], acc.2) := by
          simp [initEntryStep, hig, hfv]
        rw [hstep]
        have hiff' : ∀ x, x ∈ acc.2 ↔ x ∈ (acc.1 ++ [(file, 0)]).map Prod.fst := by
          intro x
          simp only [List.map_append, List.mem_append]
          constructor
          · intro hx
            exact Or.inl ((hiff x).mp hx)
          · rintro (hx | hx)
            · exact (hiff x).mpr hx
            · have hxf : x = file := by simpa using hx
              rw [hxf]
              exact hfv
        obtain ⟨h1, h2, h3⟩ := ih (acc.1 ++ [(file, 0)], acc.2) hiff' hnd
        refine ⟨h1, h2, fun x => ?_⟩
        rw [h3 x]
        constructor
        · rintro (hx | ⟨hxf, hxi⟩)
          · exact Or.inl hx
          · exact Or.inr ⟨List.mem_cons_of_mem file hxf, hxi⟩
        · rintro (hx | ⟨hxf, hxi⟩)
          · exact Or.inl hx
          · rcases List.mem_cons.mp hxf with heq | hxf'
            · exact Or.inl (heq ▸ hfv)
            · exact Or.inr ⟨hxf', hxi⟩
      · have hfv : file ∉ acc.2 := by simpa using hcont
        have hstep : initEntryStep ign acc file =
            (acc.1 ++ [(file, 0)], acc.2 ++ [file]) := by
          simp [initEntryStep, hig, hfv]
        rw [hstep]
        have hiff' : ∀ x, x ∈ acc.2 ++ [file] ↔ x ∈ (acc.1 ++ [(file, 0)]).map Prod.fst := by
          intro x
          simp only [List.map_append, List.mem_append]
          constructor
          · rintro (hx | hx)
            · exact Or.inl ((hiff x).mp hx)
            · right
              simpa using hx
          · rintro (hx | hx)
            · exact Or.inl ((hiff x).mpr hx)
            · right
              simpa using hx
        have hnd' : (acc.2 ++ [file]).Nodup := by
          simp [List.nodup_append, hnd, hfv]
        obtain ⟨h1, h2, h3⟩ := ih (acc.1 ++ [(file, 0)], acc.2 ++ [file]) hiff' hnd'
        refine ⟨h1, h2, fun x => ?_⟩
        rw [h3 x]
        constructor
        · rintro (hx | ⟨hxf, hxi⟩)
          · rcases List.mem_append.mp hx with hx | hx
            · exact Or.inl hx
            · have hxf : x = file := by simpa using hx
              rw [hxf]
              exact Or.inr ⟨List.mem_cons_self file fs, hig⟩
          · exact Or.inr ⟨List.mem_cons_of_mem file hxf, hxi⟩
        · rintro (hx | ⟨hxf, hxi⟩)
          · exact Or.inl (List.mem_append.mpr (Or.inl hx))
          · rcases List.mem_cons.mp hxf with heq | hxf'
            · exact Or.inl (List.mem_append.mpr (Or.inr (by simp [heq])))
            · exact Or.inr ⟨hxf', hxi⟩

/-- Reachability through `g` along exclusively non-ignored nodes:
`NIReach g ign e x` holds when `x` is non-ignored and reachable from the
non-ignored node `e` along edges whose endpoints are all non-ignored. -/
inductive NIReach (g : DepMap) (ign : String → Bool) : String → String → Prop
  | refl (x : String) (hx : ign x = false) : NIReach g ign x x
  | step (x y z : String) (hxy : NIReach g ign x y) (hz : z ∈ depsOf g y)
      (hzn : ign z = false) : NIReach g ign x z

theorem NIReach_not_ignored (g : DepMap) (ign : String → Bool) (e x : String)
    (h : NIReach g ign e x) : ign x = false := by
  induction h with
  | refl hx => exact hx
  | step y z _ _ hzn _ => exact hzn

/-- **C3**: for every adjacency map `G`, ignore predicate and entry list
`E`, `gatherDependencies G E 0` is exactly the non-ignored members of `E`
(each once, no children expanded), and `gatherDependencies G E undefined`
is exactly the transitive non-ignored closure of the non-ignored entries
(the result list being the visited set in discovery order, duplicate-free). -/
theorem gatherDependencies_depths (g : DepMap) (ign : String → Bool) (E : List String) :
    ((gatherDependencies g ign E (some 0)).Nodup ∧
      ∀ x, x ∈ gatherDependencies g ign E (some 0) ↔ x ∈ E ∧ ign x = false) ∧
    ((gatherDependencies g ign E none).Nodup ∧
      ∀ x, x ∈ gatherDependencies g ign E none ↔ ∃ e ∈ E, NIReach g ign e x) := by
  obtain ⟨hiff, hnd, hmem⟩ :=
    initQV_fold_spec ign E ([], []) (fun x => by simp) List.nodup_nil
  have hmem' : ∀ x, x ∈ (initQueueVisited ign E).2 ↔ x ∈ E ∧ ign x = false := by
    intro x
    rw [show (initQueueVisited ign E).2 = (E.foldl (initEntryStep ign) ([], [])).2 from rfl]
    rw [hmem x]
    simp
  constructor
  · constructor
    · unfold gatherDependencies
      rw [gatherAux_some_zero]
      exact hnd
    · intro x
      unfold gatherDependencies
      rw [gatherAux_some_zero]
      exact hmem' x
  · have hqv : ∀ p ∈ (initQueueVisited ign E).1, p.1 ∈ (initQueueVisited ign E).2 := by
      intro p hp
      exact (hiff p.1).mpr (List.mem_map.mpr ⟨p, hp, rfl⟩)
    have hproc : ∀ v ∈ (initQueueVisited ign E).2,
        v ∉ (initQueueVisited ign E).1.map Prod.fst →
        ∀ c ∈ depsOf g v, ign c = false → c ∈ (initQueueVisited ign E).2 := by
      intro v hv hnv
      exact absurd ((hiff v).mp hv) hnv
    constructor
    · exact gatherAux_nodup g ign none _ _ hnd
    · intro x
      constructor
      · intro hx
        refine gatherAux_sound g ign (fun y => ∃ e ∈ E, NIReach g ign e y) ?_ _ _ ?_ ?_ x hx
        · rintro y ⟨e, heE, hre⟩ c hc hcn
          exact ⟨e, heE, NIReach.step e y c hre hc hcn⟩
        · intro y hy
          obtain ⟨hyE, hyn⟩ := (hmem' y).mp hy
          exact ⟨y, hyE, NIReach.refl y hyn⟩
        · intro p hp
          obtain ⟨hyE, hyn⟩ := (hmem' p.1).mp (hqv p hp)
          exact ⟨p.1, hyE, NIReach.refl p.1 hyn⟩
      · rintro ⟨e, heE, hre⟩
        induction hre with
        | refl hy =>
          exact gatherAux_grows g ign none _ _ e ((hmem' e).mpr ⟨heE, hy⟩)
        | step y z hay hz hzn ih =>
          exact gatherAux_closed g ign _ _ hqv hproc y ih z hz hzn

/-- Example graph `a → b, c; b → d` where `c` is ignored. -/
def gatherGraphEx : DepMap := [("a", ["b", "c"]), ("b", ["d"])]

def gatherIgnEx : String → Bool := fun s => s == "c"

theorem gatherDependencies_depths_witness :
    "a" ∈ gatherDependencies gatherGraphEx gatherIgnEx ["a"] (some 0) ∧
    "b" ∉ gatherDependencies gatherGraphEx gatherIgnEx ["a"] (some 0) ∧
    "d" ∈ gatherDependencies gatherGraphEx gatherIgnEx ["a"] none ∧
    "c" ∉ gatherDependencies gatherGraphEx gatherIgnEx ["a"] none := by
  obtain ⟨⟨-, h0⟩, ⟨-, hn⟩⟩ := gatherDependencies_depths gatherGraphEx gatherIgnEx ["a"]
  refine ⟨?_, ?_, ?_, ?_⟩
  · exact (h0 "a").mpr ⟨by simp, by decide⟩
  · intro hmem
    have := ((h0 "b").mp hmem).1
    simp at this
  · refine (hn "d").mpr ⟨"a", by simp, ?_⟩
    have h1 : NIReach gatherGraphEx gatherIgnEx "a" "a" :=
      NIReach.refl "a" (by decide)
    have h2 : NIReach gatherGraphEx gatherIgnEx "a" "b" :=
      NIReach.step "a" "a" "b" h1 (by decide) (by decide)
    exact NIReach.step "a" "b" "d" h2 (by decide) (by decide)
  · intro hmem
    obtain ⟨e, -, hre⟩ := (hn "c").mp hmem
    exact absurd (NIReach_not_ignored gatherGraphEx gatherIgnEx e "c" hre) (by decide)

/-! ## DependencyAnalyzer.getCircularDependencies -/

/-- JS `Set.add`: no-op when the element is present. -/
def setAdd (s : List String) (x : String) : List String :=
  if s.contains x then s else s ++ [x]

/-- JS `Set.delete` (the element occurs at most once in a set). -/
def setDelete (s : List String) (x : String) : List String :=
  s.filter (fun y => y != x)

/-- The duplicate test of `getCircularDependencies`:
`existing.length === cycle.length && existing.every((v, i) => v === cycle[i])`,
i.e. exact ordered equality of the two sequences. -/
def cycleKnown (cycles : List (List String)) (cycle : List String) : Bool :=
  cycles.any (fun existing => existing == cycle)

/-- The mutable state shared by the `dfs` closure: the visited set, the
recursion-stack set and the collected cycles. -/
structure DfsState where
  visited : List String
  recursionStack : List String
  cycles : List (List String)
deriving DecidableEq, Repr

/-- `path.slice(path.indexOf(dependency))`: JS `indexOf` yields `-1` when
the element is absent and `slice(-1)` then keeps only the last element. -/
def sliceFromIndexOf (path : List String) (dep : String) : List String :=
  match path.findIdx? (fun y => y == dep) with
  | some i => path.drop i
  | none => path.drop (path.length - 1)

/-- The recursive `dfs(node, path)` closure of `getCircularDependencies`.
`fuel` bounds the recursion depth; `dfs` is entered only on unvisited
nodes and marks its node visited immediately, so the depth never exceeds
the number of distinct nodes and any fuel above `totalFuel` reproduces the
source behaviour exactly. -/
def dfsNode (g : DepMap) : Nat → String → List String → DfsState → DfsState
  | 0, _, _, st => st
  | fuel + 1, node, path, st =>
      let st1 : DfsState :=
        { st with visited := setAdd st.visited node
                  recursionStack := setAdd st.recursionStack node }
      let path1 := path ++ [node]
      let st2 := (depsOf g node).foldl (fun acc dep =>
          if !acc.visited.contains dep then
            dfsNode g fuel dep path1 acc
          else if acc.recursionStack.contains dep then
            let cycle := sliceFromIndexOf path1 dep
            if cycleKnown acc.cycles cycle then acc
            else { acc with cycles := acc.cycles ++ [cycle] }
          else acc) st1
      { st2 with recursionStack := setDelete st2.recursionStack node }

/-- Strictly more fuel than there are distinct nodes anywhere in the map. -/
def totalFuel (g : DepMap) : Nat := (keysOf g).length + (targetsOf g).length + 1

/-- `DependencyAnalyzer.getCircularDependencies`: a depth-first search is
started from **every** key of the supplied map (skipping already-visited
nodes), accumulating the cycles found. -/
def getCircularDependencies (g : DepMap) : List (List String) :=
  ((keysOf g).foldl (fun st node =>
      if !st.visited.contains node then dfsNode g (totalFuel g) node [] st else st)
    { visited := [], recursionStack := [], cycles := [] }).cycles

/-- The two-component example: a 3-cycle and a disconnected 2-cycle. -/
def cycleGraphEx : DepMap :=
  [("A", ["B"]), ("B", ["C"]), ("C", ["A"]), ("X", ["Y"]), ("Y", ["X"])]

/-- **C4**: on `{A→[B], B→[C], C→[A], X→[Y], Y→[X]}` the detector, seeded
from every key, returns exactly the two cycles `[A,B,C]` and `[X,Y]` even
though the components are mutually unreachable; and the duplicate test
identifies two cycles only when their ordered sequences are
element-for-element equal, so a rotation such as `[B,A]` of `[A,B]` is not
considered a duplicate. -/
theorem getCircularDependencies_from_every_key :
    getCircularDependencies cycleGraphEx = [["A", "B", "C"], ["X", "Y"]] ∧
    (∀ (cs : List (List String)) (c : List String), cycleKnown cs c = true ↔ c ∈ cs) ∧
    cycleKnown [["A", "B"]] ["B", "A"] = false ∧
    cycleKnown [["A", "B"]] ["A", "B"] = true := by
  refine ⟨by decide, ?_, by decide, by decide⟩
  intro cs c
  simp [cycleKnown, List.any_eq_true]

/-! ## DependencyAnalyzer.analyzeDependencies -/

/-- The external collaborators of `analyzeDependencies`, abstracted:
`relativize` models `fileSystem.getRelativePath(projectRoot, ·)`,
`resolvePath` models `fileSystem.resolvePath(projectRoot, ·)`, `ignores`
models `ignoreHandler.shouldIgnore`, `madge` maps a relative entry file to
the adjacency object `madge(entryFile, config).obj()` returns for it, and
`cacheKey` models the md5-based `getCacheKey(relativeFiles, projectRoot)`. -/
structure AnalyzeEnv where
  relativize : String → String → String
  resolvePath : String → String → String
  ignores : String → Bool
  madge : String → DepMap
  cacheKey : List String → String → String

/-- The `IAnalyzeOptions` fields the embedded control flow consults. -/
structure AnalyzeOptions where
  skipCache : Bool := false
  includeNodeModules : Bool := false
deriving DecidableEq, Repr

/-- `IDependencyAnalysisResult`; the cache-hit branch of the source builds
its result object without a `warnings` property, modelled as `none`. -/
structure AnalysisResult where
  entryFiles : List String
  dependencies : DepMap
  circularDependencies : List (List String)
  totalFiles : Nat
  analysisTime : Int
  warnings : Option (List String) := none
deriving DecidableEq, Repr

/-- `Array.from(new Set(l))`: deduplicate preserving first occurrences. -/
def jsSetDedup (l : List String) : List String :=
  l.foldl (fun acc x => if acc.contains x then acc else acc ++ [x]) []

/-- JS object property assignment `g[k] = vs`: overwrites in place when the
key exists (keeping its position), otherwise appends. -/
def depMapSet (g : DepMap) (k : String) (vs : List String) : DepMap :=
  if g.any (fun p => p.1 == k) then
    g.map (fun p => if p.1 == k then (k, vs) else p)
  else g ++ [(k, vs)]

/-- One `Object.entries(deps).forEach(([file, fileDeps]) => ...)` iteration
of the merge loop: resolve the key, drop it when ignored (unless
`includeNodeModules`), resolve and ignore-filter its dependencies, and
record the key (unioned with any previous value set) only when at least
one dependency survives, bumping `totalFiles`. -/
def mergeEntry (env : AnalyzeEnv) (projectRoot : String) (inm : Bool)
    (acc : DepMap × Nat) (kv : String × List String) : DepMap × Nat :=
  if inm || !env.ignores (env.resolvePath projectRoot kv.1) then
    if ((kv.2.map (env.resolvePath projectRoot)).filter
        (fun dep => inm || !env.ignores dep)).length > 0 then
      (depMapSet acc.1 (env.resolvePath projectRoot kv.1)
        (jsSetDedup (depsOf acc.1 (env.resolvePath projectRoot kv.1) ++
          (kv.2.map (env.resolvePath projectRoot)).filter
            (fun dep => inm || !env.ignores dep))),
       acc.2 + 1)
    else acc
  else acc

/-- The `dependencyMaps.forEach` merge of the per-entry madge results. -/
def mergeDependencyMaps (env : AnalyzeEnv) (projectRoot : String) (inm : Bool)
    (maps : List DepMap) : DepMap × Nat :=
  maps.foldl (fun acc deps => deps.foldl (mergeEntry env projectRoot inm) acc) ([], 0)

/-- The `// Cache the result if enabled` step of `analyzeDependencies`. -/
def writeThroughCache (env : AnalyzeEnv) (relativeFiles : List String)
    (projectRoot : String) (options : AnalyzeOptions)
    (cache : Option DependencyCache) (dependencies : DepMap) (now : Int) :
    Except String (Option DependencyCache) :=
  if !options.skipCache then
    match cache with
    | some c =>
        match DependencyCache.set c (env.cacheKey relativeFiles projectRoot)
            dependencies {} now with
        | .error e => .error e
        | .ok c' => .ok (some c')
    | none => .ok none
  else .ok cache

/-- The madge fan-out (`relativeFiles.map(...)` over `await madge(...)`)
followed by the merge: the source's `dependencyMaps` / `dependencies` /
`totalFiles` triple. -/
def mergedOf (env : AnalyzeEnv) (projectRoot : String) (options : AnalyzeOptions)
    (relativeFiles : List String) : DepMap × Nat :=
  mergeDependencyMaps env projectRoot options.includeNodeModules
    (relativeFiles.map env.madge)

/-- The non-cached tail of `analyzeDependencies`: madge fan-out, merge,
cache write-through, cycle detection and result construction (with the
cycle warning attached only here). -/
def analyzeFresh (env : AnalyzeEnv) (files relativeFiles : List String)
    (projectRoot : String) (options : AnalyzeOptions)
    (cache : Option DependencyCache) (startTime now : Int) :
    Except String (AnalysisResult × Option DependencyCache) :=
  match writeThroughCache env relativeFiles projectRoot options cache
      (mergedOf env projectRoot options relativeFiles).1 now with
  | .error e => .error e
  | .ok cache' =>
      .ok ({ entryFiles := files
             dependencies := (mergedOf env projectRoot options relativeFiles).1
             circularDependencies :=
               getCircularDependencies (mergedOf env projectRoot options relativeFiles).1
             totalFiles := (mergedOf env projectRoot options relativeFiles).2
             analysisTime := now - startTime
             warnings :=
               if (getCircularDependencies
                     (mergedOf env projectRoot options relativeFiles).1).length > 0 then
                 some ["Found " ++
                   toString (getCircularDependencies
                     (mergedOf env projectRoot options relativeFiles).1).length ++
                   " circular dependencies"]
               else none }, cache')

/-- `DependencyAnalyzer.analyzeDependencies` on an initialized analyzer.
`startTime` is the `Date.now()` captured on entry; `now` stands for the
remaining `Date.now()` calls (cache operations and elapsed time).  A
cache hit returns the cached graph with freshly recomputed cycles,
`Object.keys(cachedDeps).length` as total and **no** warnings field. -/
def analyzeDependencies (env : AnalyzeEnv) (entryFiles : List String)
    (projectRoot : String) (options : AnalyzeOptions)
    (cache : Option DependencyCache) (startTime now : Int) :
    Except String (AnalysisResult × Option DependencyCache) :=
  if !options.skipCache then
    match cache with
    | some c =>
        match DependencyCache.get c
            (env.cacheKey (entryFiles.map (env.relativize projectRoot)) projectRoot)
            {} now with
        | .error e => .error e
        | .ok (some cachedDeps, c1) =>
            .ok ({ entryFiles := entryFiles
                   dependencies := cachedDeps
                   circularDependencies := getCircularDependencies cachedDeps
                   totalFiles := (keysOf cachedDeps).length
                   analysisTime := now - startTime
                   warnings := none }, some c1)
        | .ok (none, c1) =>
            analyzeFresh env entryFiles (entryFiles.map (env.relativize projectRoot))
              projectRoot options (some c1) startTime now
    | none =>
        analyzeFresh env entryFiles (entryFiles.map (env.relativize projectRoot))
          projectRoot options none startTime now
  else
    analyzeFresh env entryFiles (entryFiles.map (env.relativize projectRoot))
      projectRoot options cache startTime now

/-- Whether a call to `analyzeDependencies` is served from the cache. -/
def cacheHit (env : AnalyzeEnv) (entryFiles : List String) (projectRoot : String)
    (options : AnalyzeOptions) (cache : Option DependencyCache) (now : Int) : Bool :=
  !options.skipCache &&
    (match cache with
     | some c =>
         (match DependencyCache.get c
             (env.cacheKey (entryFiles.map (env.relativize projectRoot)) projectRoot)
             {} now with
          | .ok (some _, _) => true
          | _ => false)
     | none => false)

theorem analyzeFresh_warnings (env : AnalyzeEnv) (files relativeFiles : List String)
    (projectRoot : String) (options : AnalyzeOptions) (cache : Option DependencyCache)
    (startTime now : Int) (res : AnalysisResult) (cache' : Option DependencyCache)
    (h : analyzeFresh env files relativeFiles projectRoot options cache startTime now
          = .ok (res, cache')) :
    res.circularDependencies ≠ [] ↔ ∃ w, res.warnings = some w ∧ w ≠ [] := by
  unfold analyzeFresh at h
  cases hw : writeThroughCache env relativeFiles projectRoot options cache
      (mergedOf env projectRoot options relativeFiles).1 now with
  | error e =>
    rw [hw] at h
    simp at h
  | ok cache'' =>
    rw [hw] at h
    simp only [Except.ok.injEq, Prod.mk.injEq] at h
    obtain ⟨hres, -⟩ := h
    subst hres
    cases hc : getCircularDependencies (mergedOf env projectRoot options relativeFiles).1 with
    | nil => simp [hc]
    | cons c cs => simp [hc]

/-- **C6 (amended)**: a successful `analyzeDependencies` call that is not
served from the cache carries a non-empty `warnings` field exactly when
its cycle list is non-empty; a call served from a cache hit never carries
a `warnings` field, even though its cycle list is freshly recomputed from
the cached graph and may be non-empty. -/
theorem analyzeDependencies_warnings (env : AnalyzeEnv) (entryFiles : List String)
    (projectRoot : String) (options : AnalyzeOptions) (cache : Option DependencyCache)
    (startTime now : Int) (res : AnalysisResult) (cache' : Option DependencyCache)
    (h : analyzeDependencies env entryFiles projectRoot options cache startTime now
          = .ok (res, cache')) :
    (cacheHit env entryFiles projectRoot options cache now = false →
      (res.circularDependencies ≠ [] ↔ ∃ w, res.warnings = some w ∧ w ≠ [])) ∧
    (cacheHit env entryFiles projectRoot options cache now = true →
      res.warnings = none) := by
  unfold analyzeDependencies at h
  cases hsc : options.skipCache with
  | true =>
    rw [hsc] at h
    simp only [Bool.not_true, Bool.false_eq_true, if_false] at h
    refine ⟨fun _ => analyzeFresh_warnings _ _ _ _ _ _ _ _ _ _ h, fun hhit => ?_⟩
    simp [cacheHit, hsc] at hhit
  | false =>
    rw [hsc] at h
    simp only [Bool.not_false, if_true] at h
    cases cache with
    | none =>
      refine ⟨fun _ => analyzeFresh_warnings _ _ _ _ _ _ _ _ _ _ h, fun hhit => ?_⟩
      simp [cacheHit, hsc] at hhit
    | some c =>
      simp only [] at h
      cases hg : DependencyCache.get c
          (env.cacheKey (entryFiles.map (env.relativize projectRoot)) projectRoot)
          {} now with
      | error e =>
        rw [hg] at h
        simp at h
      | ok pr =>
        obtain ⟨cached?, c1⟩ := pr
        cases cached? with
        | none =>
          rw [hg] at h
          refine ⟨fun _ => analyzeFresh_warnings _ _ _ _ _ _ _ _ _ _ h, fun hhit => ?_⟩
          simp [cacheHit, hsc, hg] at hhit
        | some cachedDeps =>
          rw [hg] at h
          simp only [Except.ok.injEq, Prod.mk.injEq] at h
          obtain ⟨hres, -⟩ := h
          refine ⟨fun hmiss => ?_, fun _ => ?_⟩
          · simp [cacheHit, hsc, hg] at hmiss
          · rw [← hres]

/-- Environment for the C6 cache-hit counterexample: the cache already
holds the cyclic graph `a ↔ b` under the computed key. -/
def envC6 : AnalyzeEnv :=
  { relativize := fun _ s => s
    resolvePath := fun _ s => s
    ignores := fun _ => false
    madge := fun _ => []
    cacheKey := fun _ _ => "k" }

def cacheC6 : DependencyCache :=
  { cache := [("k", { dependencies := [("a", ["b"]), ("b", ["a"])], timestamp := 0,
                      hash := "h", timeout := 0 })]
    timeout := 300000
    stats := initializeStats
    isInitialized := true
    cacheDuration := 0 }

/-- **C6 counterexample**: a cache-hit `analyzeDependencies` result whose
freshly recomputed cycle list is the non-empty `[["a","b"]]` but whose
`warnings` field is absent (`none`), contradicting the claim that every
result with cycles — including ones served from a cache hit — carries a
non-empty `warnings` field. -/
theorem analyzeDependencies_cachehit_no_warning_cex :
    (analyzeDependencies envC6 ["a"] "/r" {} (some cacheC6) 0 1).map
        (fun r => (r.1.circularDependencies, r.1.warnings))
      = .ok ([["a", "b"]], none) ∧ ([["a", "b"]] : List (List String)) ≠ [] := by
  exact ⟨rfl, by decide⟩

/-- Fresh-path environment for the C6 witness: madge reports the cyclic
graph `a ↔ b` and caching is skipped. -/
def envC6w : AnalyzeEnv :=
  { envC6 with madge := fun _ => [("a", ["b"]), ("b", ["a"])] }

theorem analyzeDependencies_warnings_witness :
    ∃ res cache',
      analyzeDependencies envC6w ["a"] "/r" ⟨true, false⟩ none 0 1 = .ok (res, cache') ∧
      (res.circularDependencies ≠ [] ↔ ∃ w, res.warnings = some w ∧ w ≠ []) := by
  refine ⟨_, _, rfl, ?_⟩
  exact (analyzeDependencies_warnings envC6w ["a"] "/r" ⟨true, false⟩ none 0 1 _ _ rfl).1 rfl

theorem keysOf_depMapSet (g : DepMap) (k : String) (vs : List String) (x : String)
    (hx : x ∈ keysOf (depMapSet g k vs)) : x ∈ keysOf g ∨ x = k := by
  unfold depMapSet keysOf at hx
  by_cases h : g.any (fun p => p.1 == k) = true
  · rw [if_pos h, List.map_map] at hx
    obtain ⟨p, hp, hpx⟩ := List.mem_map.mp hx
    simp only [Function.comp_apply] at hpx
    by_cases hpk : (p.1 == k) = true
    · rw [if_pos hpk] at hpx
      exact Or.inr hpx.symm
    · rw [if_neg hpk] at hpx
      exact Or.inl (List.mem_map.mpr ⟨p, hp, hpx⟩)
  · rw [if_neg h, List.map_append, List.mem_append] at hx
    rcases hx with hx | hx
    · exact Or.inl hx
    · right
      simpa using hx

/-- What it takes for `k` to be recorded as a key while merging one single
adapter map `m` (with `includeNodeModules` unset): some entry of `m`
resolves to `k`, `k` is not ignored, and at least one of the entry's
reported dependencies survives the ignore filter. -/
def keyJustified (env : AnalyzeEnv) (projectRoot : String) (m : DepMap) (k : String) : Prop :=
  ∃ kv ∈ m, env.resolvePath projectRoot kv.1 = k ∧
    env.ignores k = false ∧
    ∃ dep ∈ kv.2, env.ignores (env.resolvePath projectRoot dep) = false

theorem mergeEntry_fold_keys (env : AnalyzeEnv) (projectRoot : String) :
    ∀ (m : DepMap) (acc : DepMap × Nat) (k : String),
      k ∈ keysOf (m.foldl (mergeEntry env projectRoot false) acc).1 →
      k ∈ keysOf acc.1 ∨ keyJustified env projectRoot m k := by
  intro m
  induction m with
  | nil => intro acc k hk; exact Or.inl hk
  | cons kv rest ih =>
    intro acc k hk
    rw [List.foldl_cons] at hk
    rcases ih (mergeEntry env projectRoot false acc kv) k hk with hin | hjust
    · unfold mergeEntry at hin
      by_cases habs : (false || !env.ignores (env.resolvePath projectRoot kv.1)) = true
      · rw [if_pos habs] at hin
        by_cases hlen : ((kv.2.map (env.resolvePath projectRoot)).filter
            (fun dep => false || !env.ignores dep)).length > 0
        · rw [if_pos hlen] at hin
          rcases keysOf_depMapSet acc.1 (env.resolvePath projectRoot kv.1) _ k hin
            with hold | heq
          · exact Or.inl hold
          · right
            obtain ⟨d, hd⟩ := List.exists_mem_of_length_pos hlen
            have hdm := List.mem_filter.mp hd
            obtain ⟨dep, hdep, hdeq⟩ := List.mem_map.mp hdm.1
            refine ⟨kv, List.mem_cons_self kv rest, heq.symm, ?_, dep, hdep, ?_⟩
            · have hig : env.ignores (env.resolvePath projectRoot kv.1) = false := by
                simpa using habs
              rw [heq]
              exact hig
            · rw [hdeq]
              simpa using hdm.2
        · rw [if_neg hlen] at hin
          exact Or.inl hin
      · rw [if_neg habs] at hin
        exact Or.inl hin
    · obtain ⟨kv', hkv', hrest⟩ := hjust
      exact Or.inr ⟨kv', List.mem_cons_of_mem kv hkv', hrest⟩

theorem mergeDependencyMaps_keys (env : AnalyzeEnv) (projectRoot : String) :
    ∀ (maps : List DepMap) (acc : DepMap × Nat) (k : String),
      k ∈ keysOf (maps.foldl
        (fun acc deps => deps.foldl (mergeEntry env projectRoot false) acc) acc).1 →
      k ∈ keysOf acc.1 ∨ ∃ m ∈ maps, keyJustified env projectRoot m k := by
  intro maps
  induction maps with
  | nil => intro acc k hk; exact Or.inl hk
  | cons m rest ih =>
    intro acc k hk
    rw [List.foldl_cons] at hk
    rcases ih (m.foldl (mergeEntry env projectRoot false) acc) k hk with hin | hjust
    · rcases mergeEntry_fold_keys env projectRoot m acc k hin with hold | hj
      · exact Or.inl hold
      · exact Or.inr ⟨m, List.mem_cons_self m rest, hj⟩
    · obtain ⟨m', hm', hj⟩ := hjust
      exact Or.inr ⟨m', List.mem_cons_of_mem m hm', hj⟩

/-- **C10**: in the merged graph of a fresh (cache-skipping) call without
`includeNodeModules`, every key comes from an adapter entry resolving to
it, not itself ignored, with at least one direct dependency that survives
the ignore filter — so files whose reported dependency list is empty or
entirely ignored (leaf files included) never appear as keys. -/
theorem analyzeDependencies_keys_need_surviving_dep (env : AnalyzeEnv)
    (entryFiles : List String) (projectRoot : String) (cache : Option DependencyCache)
    (startTime now : Int) (res : AnalysisResult) (cache' : Option DependencyCache)
    (k : String)
    (h : analyzeDependencies env entryFiles projectRoot
          { skipCache := true, includeNodeModules := false } cache startTime now
          = .ok (res, cache'))
    (hk : k ∈ keysOf res.dependencies) :
    ∃ rel ∈ entryFiles.map (env.relativize projectRoot),
      ∃ kv ∈ env.madge rel, env.resolvePath projectRoot kv.1 = k ∧
        env.ignores k = false ∧
        ∃ dep ∈ kv.2, env.ignores (env.resolvePath projectRoot dep) = false := by
  unfold analyzeDependencies analyzeFresh writeThroughCache at h
  simp only [Bool.not_true, Bool.false_eq_true, if_false] at h
  simp only [Except.ok.injEq, Prod.mk.injEq] at h
  obtain ⟨hres, -⟩ := h
  rw [← hres] at hk
  simp only [mergedOf] at hk
  rcases mergeDependencyMaps_keys env projectRoot
      ((entryFiles.map (env.relativize projectRoot)).map env.madge) ([], 0) k hk
    with hnil | ⟨m, hm, hj⟩
  · simp [keysOf] at hnil
  · obtain ⟨rel, hrel, hmeq⟩ := List.mem_map.mp hm
    obtain ⟨kv, hkv, hrest⟩ := hj
    exact ⟨rel, hrel, kv, hmeq ▸ hkv, hrest⟩

/-- Environment for the C10 witness: the adapter reports `a → [b]` and the
leaf `b → []`; nothing is ignored. -/
def envC10 : AnalyzeEnv :=
  { relativize := fun _ s => s
    resolvePath := fun _ s => s
    ignores := fun _ => false
    madge := fun _ => [("a", ["b"]), ("b", [])]
    cacheKey := fun _ _ => "k" }

theorem analyzeDependencies_keys_witness :
    ∃ res cache',
      analyzeDependencies envC10 ["a"] "/r"
          { skipCache := true, includeNodeModules := false } none 0 1 = .ok (res, cache') ∧
      keysOf res.dependencies = ["a"] ∧
      "b" ∈ depsOf res.dependencies "a" ∧
      ∃ rel ∈ (["a"] : List String).map (envC10.relativize "/r"),
        ∃ kv ∈ envC10.madge rel, envC10.resolvePath "/r" kv.1 = "a" ∧
          envC10.ignores "a" = false ∧
          ∃ dep ∈ kv.2, envC10.ignores (envC10.resolvePath "/r" dep) = false := by
  refine ⟨_, _, rfl, by rfl, by decide, ?_⟩
  exact analyzeDependencies_keys_need_surviving_dep envC10 ["a"] "/r" none 0 1 _ _ "a"
    rfl (by decide)

end GatherTS
